import Mathlib

/-!
Verification of the deterministic text-analysis pipeline of the
Automated-Legal-Document-Summarizer repository.

The Python sources (`text_chunking.py`, `keyword_extraction.py`,
`summarization.py`) are shallowly embedded below: strings become `List Char`,
`re`-based splitting and matching become explicit scanning functions with the
exact backtracking behaviour of the regexes used by the code, Python `int`
parameters that may be negative become `Int`, and the two places where the
code can raise (`range()` with a zero step, an unknown chunking method, and
the final division by the original word count) are modelled with `Except`.
-/

deriving instance DecidableEq for Except

namespace LegalDoc

/-- The characters Python's `str.split()` / `str.strip()` treat as whitespace
(ASCII fragment of Python's definition, which is all the sources use). -/
def pyIsSpace (c : Char) : Bool :=
  c = ' ' || c = '\t' || c = '\n' || c = '\r' || c = '\x0b' || c = '\x0c'

/-- Python's `str.strip()`: drop leading and trailing whitespace. -/
def pyStrip (l : List Char) : List Char :=
  ((l.dropWhile pyIsSpace).reverse.dropWhile pyIsSpace).reverse

/-- Worker for `pySplitWs`: single pass, `cur` is the reversed word being
built; a whitespace character flushes it (empty pieces are discarded, as
`str.split()` does). -/
def pySplitWsAux (cur : List Char) : List Char → List (List Char)
  | [] => if cur.isEmpty then [] else [cur.reverse]
  | c :: rest =>
    if pyIsSpace c then
      if cur.isEmpty then pySplitWsAux [] rest
      else cur.reverse :: pySplitWsAux [] rest
    else pySplitWsAux (c :: cur) rest

/-- Python's `str.split()` with no argument: split on runs of whitespace,
discarding empty pieces. -/
def pySplitWs (l : List Char) : List (List Char) := pySplitWsAux [] l

/-- Sentence terminators used by the sources' `[.!?]` character class. -/
def isTerm (c : Char) : Bool := c = '.' || c = '!' || c = '?'

/-- Worker for `splitTerm`; `cur` is the (reversed) segment being built and
`inTerm` records that the scan is inside a terminator run (so that a run of
terminators produces a single split, as the `+` in the pattern demands). -/
def splitTermAux (cur : List Char) (inTerm : Bool) : List Char → List (List Char)
  | [] => [cur.reverse]
  | c :: rest =>
    if isTerm c then
      if inTerm then splitTermAux cur inTerm rest
      else cur.reverse :: splitTermAux [] true rest
    else splitTermAux (c :: cur) false rest

/-- Python's `re.split(r'[.!?]+', text)`: split on runs of sentence
terminators (empty pieces at the ends are kept, as `re.split` does). -/
def splitTerm (l : List Char) : List (List Char) := splitTermAux [] false l

/-- Python's `'sep'.join(pieces)`. -/
def joinSep (sep : List Char) : List (List Char) → List Char
  | [] => []
  | [x] => x
  | x :: y :: xs => x ++ sep ++ joinSep sep (y :: xs)

/-- Python list slice `l[start:stop]` where `start` is a nonnegative index and
`stop` may be negative (counting from the end), as in `words[i:i+size]`. -/
def pySlice (l : List α) (start : Nat) (stop : Int) : List α :=
  let n := l.length
  let stop' : Nat := if stop < 0 then ((n : Int) + stop).toNat else min stop.toNat n
  (l.drop start).take (stop' - start)

/-- The index list of Python's `range(0, n, s)` for a positive step `s`. -/
def posRange (n s : Nat) : List Nat :=
  (List.range ((n + s - 1) / s)).map (· * s)

/-- The errors the embedded code can raise. -/
inductive PyErr where
  | valueError
  | zeroDivisionError
deriving DecidableEq, Repr

/-- Python's `range(0, n, step)`: raises `ValueError` on a zero step, is empty
for a negative step, and steps through `0, step, …` below `n` otherwise. -/
def pyRange (n : Nat) (step : Int) : Except PyErr (List Nat) :=
  if step = 0 then .error .valueError
  else if step < 0 then .ok []
  else .ok (posRange n step.toNat)

/-!  `text_chunking.py` — class `TextChunker`. -/

/-- The chunk dictionaries produced by `TextChunker`
(`paragraph_count` is only present for paragraph chunking). -/
structure Chunk where
  id : Nat
  content : List Char
  word_count : Nat
  sentence_count : Nat
  paragraph_count : Option Nat := none
  start_index : Nat
  end_index : Nat
deriving DecidableEq, Repr

/-- The loop body of `TextChunker.chunk_by_words`: walk the index list of
`range(0, len(words), step)`, slice `words[i:i+chunk_size]`, and append a
chunk dictionary whenever the joined content is non-blank (`k` is the number
of chunks appended so far, so the next id is `k + 1`). -/
def buildWordChunks (words : List (List Char)) (chunk_size : Int) :
    List Nat → Nat → List Chunk
  | [], _ => []
  | i :: is, k =>
    let chunk_words := pySlice words i ((i : Int) + chunk_size)
    let content := joinSep [' '] chunk_words
    if pyStrip content ≠ [] then
      { id := k + 1, content := pyStrip content,
        word_count := chunk_words.length,
        sentence_count := (splitTerm content).length,
        start_index := i, end_index := i + chunk_words.length } ::
        buildWordChunks words chunk_size is (k + 1)
    else buildWordChunks words chunk_size is k

/-- `TextChunker.chunk_by_words`. -/
def chunk_by_words (chunk_size overlap : Int) (text : List Char) :
    Except PyErr (List Chunk) :=
  let words := pySplitWs text
  (pyRange words.length (chunk_size - overlap)).map
    (fun idxs => buildWordChunks words chunk_size idxs 0)

/-- The unit list of `TextChunker.chunk_by_sentences`:
`[s.strip() for s in re.split(r'[.!?]+', text) if s.strip()]`. -/
def sentenceUnits (text : List Char) : List (List Char) :=
  (splitTerm text).filterMap
    (fun s => if pyStrip s ≠ [] then some (pyStrip s) else none)

/-- The loop body of `TextChunker.chunk_by_sentences`. -/
def buildSentenceChunks (sentences : List (List Char)) (chunk_size : Int) :
    List Nat → Nat → List Chunk
  | [], _ => []
  | i :: is, k =>
    let chunk_sentences := pySlice sentences i ((i : Int) + chunk_size)
    let content := joinSep ('.' :: [' ']) chunk_sentences ++ ['.']
    if pyStrip content ≠ [] then
      { id := k + 1, content := pyStrip content,
        word_count := (pySplitWs content).length,
        sentence_count := chunk_sentences.length,
        start_index := i, end_index := i + chunk_sentences.length } ::
        buildSentenceChunks sentences chunk_size is (k + 1)
    else buildSentenceChunks sentences chunk_size is k

/-- `TextChunker.chunk_by_sentences`. -/
def chunk_by_sentences (chunk_size overlap : Int) (text : List Char) :
    Except PyErr (List Chunk) :=
  let sentences := sentenceUnits text
  (pyRange sentences.length (chunk_size - overlap)).map
    (fun idxs => buildSentenceChunks sentences chunk_size idxs 0)

/-- Does a maximal whitespace run contain a `\n\s*\n` match?  Exactly when
it holds at least two newlines (the match then runs from the run's first
newline to its last one). -/
def hasParaBreak (w : List Char) : Bool :=
  2 ≤ (w.filter (fun c => c = '\n')).length

/-- The part of a whitespace run before its first newline (it stays with the
preceding segment when the run is a paragraph break). -/
def runBefore (w : List Char) : List Char := w.takeWhile (fun c => c ≠ '\n')

/-- The part of a whitespace run after its last newline (it starts the
following segment when the run is a paragraph break). -/
def runAfter (w : List Char) : List Char :=
  (w.reverse.takeWhile (fun c => c ≠ '\n')).reverse

/-- Worker for `paraSplit`: single pass with `cur` the reversed current
segment and `pw` the reversed pending whitespace run.  When the run ends (at
a non-whitespace character or the end of the text), it either contains a
`\n\s*\n` match — then the segment closes after `runBefore` and the next
one opens with `runAfter` — or it is kept in the current segment. -/
def paraSplitAux (cur pw : List Char) : List Char → List (List Char)
  | [] =>
    if hasParaBreak pw.reverse then
      [cur.reverse ++ runBefore pw.reverse, runAfter pw.reverse]
    else [cur.reverse ++ pw.reverse]
  | c :: rest =>
    if pyIsSpace c then paraSplitAux cur (c :: pw) rest
    else
      if hasParaBreak pw.reverse then
        (cur.reverse ++ runBefore pw.reverse) ::
          paraSplitAux (c :: (runAfter pw.reverse).reverse) [] rest
      else paraSplitAux (c :: (pw ++ cur)) [] rest

/-- Python's `re.split(r'\n\s*\n', text)`. -/
def paraSplit (text : List Char) : List (List Char) := paraSplitAux [] [] text

/-- The unit list of `TextChunker.chunk_by_paragraphs`:
`[p.strip() for p in re.split(r'\n\s*\n', text) if p.strip()]`. -/
def paragraphUnits (text : List Char) : List (List Char) :=
  (paraSplit text).filterMap
    (fun p => if pyStrip p ≠ [] then some (pyStrip p) else none)

/-- The loop body of `TextChunker.chunk_by_paragraphs`. -/
def buildParagraphChunks (paragraphs : List (List Char)) (chunk_size : Int) :
    List Nat → Nat → List Chunk
  | [], _ => []
  | i :: is, k =>
    let chunk_paragraphs := pySlice paragraphs i ((i : Int) + chunk_size)
    let content := joinSep ('\n' :: ['\n']) chunk_paragraphs
    if pyStrip content ≠ [] then
      { id := k + 1, content := pyStrip content,
        word_count := (pySplitWs content).length,
        sentence_count := (splitTerm content).length,
        paragraph_count := some chunk_paragraphs.length,
        start_index := i, end_index := i + chunk_paragraphs.length } ::
        buildParagraphChunks paragraphs chunk_size is (k + 1)
    else buildParagraphChunks paragraphs chunk_size is k

/-- `TextChunker.chunk_by_paragraphs`. -/
def chunk_by_paragraphs (chunk_size overlap : Int) (text : List Char) :
    Except PyErr (List Chunk) :=
  let paragraphs := paragraphUnits text
  (pyRange paragraphs.length (chunk_size - overlap)).map
    (fun idxs => buildParagraphChunks paragraphs chunk_size idxs 0)

/-- `TextChunker.process_document`: dispatch on the configured method and
raise `ValueError` on an unknown one. -/
def process_document (method : String) (chunk_size overlap : Int)
    (text : List Char) : Except PyErr (List Chunk) :=
  if method = "words" then chunk_by_words chunk_size overlap text
  else if method = "sentences" then chunk_by_sentences chunk_size overlap text
  else if method = "paragraphs" then chunk_by_paragraphs chunk_size overlap text
  else .error .valueError

/-!
Python's `list.sort(key=…)` is a stable sort.  Any stable sort by a key into a
linear order produces the same list, so we embed it as a stable insertion
sort: each later element is inserted after all already-placed elements whose
key is not greater (`list.sort(key=k, reverse=True)` is the stable sort by the
negated key).
-/

/-- Insert `x` into `l` before the first element `y` with `key x < key y`
(so `x` lands after every earlier element with an equal key: stability). -/
def stableInsert (key : α → Int) (x : α) : List α → List α
  | [] => [x]
  | y :: ys => if key x < key y then x :: y :: ys else y :: stableInsert key x ys

/-- Stable sort ascending by `key`, processing elements left to right. -/
def sortByKey (key : α → Int) (l : List α) : List α :=
  l.foldl (fun acc x => stableInsert key x acc) []

theorem stableInsert_perm (key : α → Int) (x : α) (l : List α) :
    List.Perm (stableInsert key x l) (x :: l) := by
  induction l with
  | nil => exact List.Perm.refl _
  | cons y ys ih =>
    simp only [stableInsert]
    split
    · exact List.Perm.refl _
    · exact (ih.cons y).trans (List.Perm.swap x y ys)

theorem mem_stableInsert (key : α → Int) (x z : α) (l : List α)
    (h : z ∈ stableInsert key x l) : z = x ∨ z ∈ l := by
  have := (stableInsert_perm key x l).mem_iff.mp h
  simpa using this

theorem sortByKey_perm (key : α → Int) (l : List α) :
    List.Perm (sortByKey key l) l := by
  suffices h : ∀ (l acc : List α),
      List.Perm (l.foldl (fun acc x => stableInsert key x acc) acc) (l ++ acc) by
    simpa using h l []
  intro l
  induction l with
  | nil => intro acc; simp
  | cons x xs ih =>
    intro acc
    simp only [List.foldl_cons, List.cons_append]
    exact ((ih _).trans (List.Perm.append_left xs (stableInsert_perm key x acc))).trans
      List.perm_middle

/-- The ordering a stable ascending key-sort guarantees between an output
element and any element placed after it: either a strictly smaller key, or an
equal key with the input-order relation `S` (stability). -/
def sortRel (key : α → Int) (S : α → α → Prop) (a b : α) : Prop :=
  key a < key b ∨ (key a = key b ∧ S a b)

theorem sortRel_key_le (key : α → Int) (S : α → α → Prop) (a b : α)
    (h : sortRel key S a b) : key a ≤ key b := by
  rcases h with h | ⟨h, _⟩
  · omega
  · omega

theorem stableInsert_pairwise (key : α → Int) (S : α → α → Prop) (x : α)
    (acc : List α) (hacc : acc.Pairwise (sortRel key S))
    (hS : ∀ e ∈ acc, S e x) :
    (stableInsert key x acc).Pairwise (sortRel key S) := by
  induction acc with
  | nil => simp [stableInsert]
  | cons y ys ih =>
    rw [List.pairwise_cons] at hacc
    simp only [stableInsert]
    split
    · rename_i hlt
      refine List.Pairwise.cons ?_ (List.Pairwise.cons hacc.1 hacc.2)
      intro z hz
      rcases List.mem_cons.mp hz with rfl | hz
      · exact Or.inl hlt
      · have := sortRel_key_le key S y z (hacc.1 z hz)
        exact Or.inl (by omega)
    · rename_i hnlt
      refine List.Pairwise.cons ?_ (ih hacc.2 (fun e he => hS e (List.mem_cons_of_mem y he)))
      intro z hz
      rcases mem_stableInsert key x z ys hz with rfl | hz
      · rcases lt_or_eq_of_le (not_lt.mp hnlt) with hlt | heq
        · exact Or.inl hlt
        · exact Or.inr ⟨heq, hS y (List.mem_cons_self y ys)⟩
      · exact hacc.1 z hz

theorem sortByKey_pairwise (key : α → Int) (S : α → α → Prop) (l : List α)
    (hl : l.Pairwise S) : (sortByKey key l).Pairwise (sortRel key S) := by
  suffices h : ∀ (l acc : List α), acc.Pairwise (sortRel key S) →
      (∀ x ∈ l, ∀ e ∈ acc, S e x) → l.Pairwise S →
      (l.foldl (fun acc x => stableInsert key x acc) acc).Pairwise (sortRel key S) by
    exact h l [] (List.Pairwise.nil) (by simp) hl
  intro l
  induction l with
  | nil => intro acc hacc _ _; simpa using hacc
  | cons x xs ih =>
    intro acc hacc hcross hl
    rw [List.pairwise_cons] at hl
    simp only [List.foldl_cons]
    refine ih _ (stableInsert_pairwise key S x acc hacc
      (fun e he => hcross x (List.mem_cons_self x xs) e he)) ?_ hl.2
    intro y hy e he
    rcases mem_stableInsert key x e acc he with rfl | he
    · exact hl.1 y hy
    · exact hcross y (List.mem_cons_of_mem x hy) e he

theorem pairwise_true (l : List α) : l.Pairwise (fun _ _ => True) := by
  induction l with
  | nil => exact List.Pairwise.nil
  | cons x xs ih => exact List.Pairwise.cons (fun _ _ => trivial) ih

/-- Sortedness alone: a stable key-sort is non-decreasing in the key. -/
theorem sortByKey_sorted (key : α → Int) (l : List α) :
    (sortByKey key l).Pairwise (fun a b => key a ≤ key b) := by
  exact (sortByKey_pairwise key (fun _ _ => True) l (pairwise_true l)).imp
    (fun h => sortRel_key_le _ _ _ _ h)

/-!  `keyword_extraction.py` — class `LegalKeywordExtractor`. -/

/-- Python's `\w` word characters (ASCII fragment): letters, digits, `_`. -/
def isWordChar (c : Char) : Bool := c.isAlpha || c.isDigit || c = '_'

/-- A `\b` word boundary holds before a word character when the previous
character (`none` at the start of the string) is not a word character. -/
def boundaryOk (prev : Option Char) : Bool :=
  match prev with
  | none => true
  | some c => !isWordChar c

/-- A trailing `\b` holds when the rest of the text starts with a non-word
character (or is empty); the text just matched ends in a letter. -/
def boundaryAfterOk : List Char → Bool
  | [] => true
  | a :: _ => !isWordChar a

/-- Worker for `re.findall(r'\b[a-zA-Z]+\b', text)`: scan carrying the
previous character; at a boundary before a letter, the greedy letter run
matches only if the character after the run is not a word character
(backtracking inside the run cannot produce a boundary).  The scan walks on
character by character: positions inside a matched run are preceded by a
letter, so the boundary test rules them out by itself, exactly like
`findall`'s continuation after the match. -/
def tokenizeAux (prev : Option Char) : List Char → List (List Char)
  | [] => []
  | c :: rest =>
    if boundaryOk prev && c.isAlpha
        && boundaryAfterOk (rest.dropWhile Char.isAlpha) then
      (c :: rest.takeWhile Char.isAlpha) :: tokenizeAux (some c) rest
    else tokenizeAux (some c) rest

/-- `re.findall(r'\b[a-zA-Z]+\b', text.lower())` as used by
`extract_statistical_keywords`. -/
def tokenize (text : List Char) : List (List Char) :=
  tokenizeAux none (text.map Char.toLower)

/-- The fixed stop-word set of `extract_statistical_keywords`. -/
def stop_words : List (List Char) :=
  ["the", "a", "an", "and", "or", "but", "in", "on", "at", "to",
   "for", "of", "with", "by", "is", "are", "was", "were", "be",
   "been", "being", "have", "has", "had", "do", "does", "did",
   "will", "would", "could", "should", "may", "might", "can",
   "this", "that", "these", "those", "i", "you", "he", "she",
   "it", "we", "they", "me", "him", "her", "us", "them"].map String.data

/-- The fixed `legal_categories` table, in its declaration order
(dictionary iteration order in Python preserves insertion order). -/
def legal_categories : List (String × List (List Char)) :=
  [("contract_terms",
    ["agreement", "contract", "covenant", "provision", "clause",
     "term", "condition", "stipulation", "arrangement", "understanding"].map String.data),
   ("parties",
    ["party", "parties", "plaintiff", "defendant", "appellant",
     "appellee", "petitioner", "respondent", "landlord", "tenant",
     "lessor", "lessee", "grantor", "grantee", "buyer", "seller",
     "vendor", "purchaser", "client", "customer"].map String.data),
   ("legal_actions",
    ["shall", "must", "may", "will", "should", "agree", "covenant",
     "warrant", "represent", "acknowledge", "consent", "waive",
     "release", "indemnify", "defend", "enforce", "terminate",
     "breach", "default", "violate", "comply", "perform"].map String.data),
   ("financial_terms",
    ["payment", "fee", "cost", "expense", "price", "amount",
     "consideration", "compensation", "damages", "penalty",
     "interest", "rent", "deposit", "refund", "reimbursement",
     "liability", "obligation", "debt", "credit", "installment"].map String.data),
   ("temporal_terms",
    ["date", "time", "period", "term", "duration", "deadline",
     "expiration", "commencement", "termination", "renewal",
     "extension", "notice", "day", "week", "month", "year",
     "annual", "monthly", "quarterly", "immediate", "upon"].map String.data),
   ("property_terms",
    ["property", "premises", "land", "building", "structure",
     "real estate", "personal property", "asset", "title",
     "ownership", "possession", "use", "occupancy", "access",
     "easement", "right of way", "boundary", "lot", "parcel"].map String.data)]

/-- `LegalKeywordExtractor.categorize_word`: first category list containing
the lowercased word wins; otherwise `general`. -/
def categorize_word (word : List Char) : String :=
  let word_lower := word.map Char.toLower
  match legal_categories.find? (fun p => decide (word_lower ∈ p.2)) with
  | some p => p.1
  | none => "general"

/-- `collections.Counter` applied to a list: counts per key, keys in first
encounter order (Counter is a dict, and dicts preserve insertion order). -/
def countOrdered (l : List (List Char)) : List (List Char × Nat) :=
  l.foldl
    (fun acc w =>
      if acc.any (fun p => p.1 = w) then
        acc.map (fun p => if p.1 = w then (p.1, p.2 + 1) else p)
      else acc ++ [(w, 1)])
    []

/-- A keyword dictionary of `extract_statistical_keywords`. -/
structure Keyword where
  term : List Char
  frequency : Nat
  category : String
  score : Nat
deriving DecidableEq, Repr

/-- The keyword list of `extract_statistical_keywords` before its final
sort-and-truncate: tokenize, filter stop words and short words, count,
filter by minimum frequency, categorize and score, in encounter order. -/
def keywordCandidates (text : List Char) (min_freq : Nat) : List Keyword :=
  let words := tokenize text
  let filtered_words := words.filter
    (fun w => !stop_words.contains w && decide (2 < w.length))
  let word_freq := countOrdered filtered_words
  let frequent_words := word_freq.filter (fun p => decide (min_freq ≤ p.2))
  frequent_words.map (fun p =>
    let category := categorize_word p.1
    { term := p.1, frequency := p.2, category := category,
      score := p.2 * (if category ≠ "general" then 2 else 1) })

/-- `LegalKeywordExtractor.extract_statistical_keywords`: sort the keyword
dictionaries by score descending (`list.sort` is stable; `reverse=True` is
the stable sort by the negated key) and keep the first `max_keywords`. -/
def extract_statistical_keywords (text : List Char)
    (min_freq max_keywords : Nat) : List Keyword :=
  (sortByKey (fun k => -(k.score : Int)) (keywordCandidates text min_freq)).take
    max_keywords

/-- Case-insensitive literal match of `pat` (stored lowercase) against the
start of `t`; returns the remaining text on success. -/
def matchCI : List Char → List Char → Option (List Char)
  | [], t => some t
  | _ :: _, [] => none
  | p :: ps, c :: cs => if c.toLower = p then matchCI ps cs else none

/-- Try one alternative of a phrase pattern
`\b(alt|…)\b[^.!?]*[.!?]` at the current position: match the alternative
case-insensitively, require a word boundary after it (every alternative ends
in a letter), then let `[^.!?]*` run greedily to the first sentence
terminator, which `[.!?]` consumes.  Returns `re.findall`'s result for the
match — the capturing group, i.e. the text the alternative matched — together
with the number of characters the full match consumed _minus one_ (a match
always consumes at least one character; returning the count less one makes
the progress of the scan explicit for termination). -/
def tryAlt (alt : List Char) (t : List Char) : Option (List Char × Nat) :=
  match matchCI alt t with
  | none => none
  | some rest =>
    if boundaryAfterOk rest then
      match rest.drop ((rest.takeWhile (fun c => !isTerm c)).length) with
      | [] => none
      | _ :: _ =>
        some (t.take alt.length,
              alt.length + (rest.takeWhile (fun c => !isTerm c)).length)
    else none

/-- Python alternation: the first alternative (in written order) that lets
the whole pattern succeed at this position wins. -/
def tryAlts (alts : List (List Char)) (t : List Char) : Option (List Char × Nat) :=
  match alts with
  | [] => none
  | alt :: more =>
    match tryAlt alt t with
    | some r => some r
    | none => tryAlts more t

/-- `re.findall(pattern, text, re.IGNORECASE)` for one phrase-pattern family:
scan left to right carrying the previous character for the leading `\b`;
matches do not overlap — after a match consuming `k + 1` characters (per
`tryAlt`'s convention) the countdown `skip` walks the scan past the matched
characters without attempting anything there, which is `findall`'s
continuation at the match end. -/
def scanPattern (alts : List (List Char)) (prev : Option Char) (skip : Nat)
    (t : List Char) : List (List Char) :=
  match t with
  | [] => []
  | c :: rest =>
    match skip with
    | Nat.succ k => scanPattern alts (some c) k rest
    | 0 =>
      if boundaryOk prev then
        match tryAlts alts (c :: rest) with
        | some (g, k) => g :: scanPattern alts (some c) k rest
        | none => scanPattern alts (some c) 0 rest
      else scanPattern alts (some c) 0 rest

/-- The six phrase-pattern families of `extract_key_phrases`, each the
alternative list of one `\b(…|…)\b[^.!?]*[.!?]` pattern, in source order. -/
def phrase_patterns : List (List (List Char)) :=
  [["subject to", "in accordance with", "pursuant to", "with respect to",
    "in the event of", "provided that", "notwithstanding",
    "for the purpose of"].map String.data,
   ["the parties agree", "it is agreed", "the tenant shall",
    "the landlord shall", "this agreement", "the term of",
    "in consideration of"].map String.data,
   ["shall be responsible for", "shall maintain", "shall provide",
    "shall pay", "shall deliver", "shall perform",
    "shall comply with"].map String.data,
   ["if and only if", "unless and until", "in the event that",
    "on condition that", "provided however"].map String.data,
   ["may be terminated", "shall terminate", "upon termination",
    "in case of termination", "termination shall"].map String.data,
   ["written notice", "notice shall be", "upon receipt of notice",
    "notice is hereby given"].map String.data]

/-- `re.sub(r'[.!?]+$', '', s)`: drop a trailing run of sentence
terminators. -/
def stripTrailTerm (l : List Char) : List Char :=
  (l.reverse.dropWhile isTerm).reverse

/-- `list(dict.fromkeys(phrases))`: deduplicate keeping first occurrences. -/
def dedupe (seen : List (List Char)) : List (List Char) → List (List Char)
  | [] => []
  | x :: xs => if x ∈ seen then dedupe seen xs else x :: dedupe (x :: seen) xs

/-- `LegalKeywordExtractor.extract_key_phrases`: run the six patterns in
order, clean each match (`strip`, drop trailing terminators) and keep it when
its length is in `[20, 200]`, then deduplicate and truncate. -/
def extract_key_phrases (text : List Char) (max_phrases : Nat) :
    List (List Char) :=
  let phrases := phrase_patterns.foldl
    (fun acc alts =>
      acc ++ (scanPattern alts none 0 text).filterMap (fun m =>
        let cleaned_phrase := stripTrailTerm (pyStrip m)
        if 20 ≤ cleaned_phrase.length ∧ cleaned_phrase.length ≤ 200 then
          some cleaned_phrase
        else none))
    []
  (dedupe [] phrases).take max_phrases

/-!  `summarization.py` — class `LegalDocumentSummarizer`. -/

/-- The fixed `legal_keywords` list of `extractive_summarization`. -/
def summ_legal_keywords : List (List Char) :=
  ["agreement", "contract", "party", "parties", "term", "condition",
   "obligation", "right", "liability", "breach", "termination",
   "payment", "consideration", "whereas", "therefore", "shall",
   "landlord", "tenant", "lease", "property", "premises"].map String.data

/-- The alternatives of the boost pattern
`\b(this agreement|the parties|it is agreed|subject to)\b`. -/
def boost_phrases : List (List Char) :=
  ["this agreement", "the parties", "it is agreed", "subject to"].map String.data

/-- Case-sensitive literal match; returns the remaining text on success. -/
def matchCS : List Char → List Char → Option (List Char)
  | [], t => some t
  | _ :: _, [] => none
  | p :: ps, c :: cs => if c = p then matchCS ps cs else none

/-- `re.search(r'\b(ph|…)\b', s)` as a Boolean: is there a position with a
word boundary where one of the literal alternatives matches, followed by a
word boundary?  (All alternatives start and end with a letter.) -/
def searchLitWB (phrases : List (List Char)) (prev : Option Char)
    (t : List Char) : Bool :=
  match t with
  | [] => false
  | c :: rest =>
    (boundaryOk prev &&
      phrases.any (fun ph =>
        match matchCS ph t with
        | none => false
        | some r => boundaryAfterOk r)) ||
    searchLitWB phrases (some c) rest

/-- `re.search(r'\b\d+\b', s)` as a Boolean: a maximal digit run whose
neighbours are not word characters (shortening the greedy `\d+` can never
create a boundary, since the next character would be a digit). -/
def searchDigitRun (prev : Option Char) (t : List Char) : Bool :=
  match t with
  | [] => false
  | c :: rest =>
    (boundaryOk prev && c.isDigit &&
      boundaryAfterOk (rest.dropWhile Char.isDigit)) ||
    searchDigitRun (some c) rest

/-- The sentence list `extractive_summarization` scores:
`[s.strip() for s in re.split(r'[.!?]+', text) if s.strip() and len(s.strip()) > 20]`. -/
def survivingSentences (text : List Char) : List (List Char) :=
  (splitTerm text).filterMap (fun s =>
    if pyStrip s ≠ [] ∧ 20 < (pyStrip s).length then some (pyStrip s) else none)

/-- The score of one sentence: +1 per word in the legal-keyword list, +2 for
a boost-pattern hit on the lowercased sentence, +1 for a digit run. -/
def sentScore (s : List Char) : Nat :=
  ((pySplitWs (s.map Char.toLower)).filter
    (fun w => summ_legal_keywords.contains w)).length
  + (if searchLitWB boost_phrases none (s.map Char.toLower) then 2 else 0)
  + (if searchDigitRun none s then 1 else 0)

/-- A `(sentence, score, i)` triple of `extractive_summarization`. -/
structure SentScore where
  sentence : List Char
  score : Nat
  idx : Nat
deriving DecidableEq, Repr

/-- `enumerate(sentences)` with scoring, starting at index `i`. -/
def sentence_scoresAux (i : Nat) : List (List Char) → List SentScore
  | [] => []
  | s :: ss => ⟨s, sentScore s, i⟩ :: sentence_scoresAux (i + 1) ss

def sentence_scores (sentences : List (List Char)) : List SentScore :=
  sentence_scoresAux 0 sentences

/-- `LegalDocumentSummarizer.extractive_summarization`. -/
def extractive_summarization (text : List Char) (num_sentences : Nat) :
    List Char :=
  let sentences := survivingSentences text
  if sentences.length ≤ num_sentences then
    joinSep ('.' :: [' ']) sentences ++ ['.']
  else
    let sentence_scores := sentence_scores sentences
    let sorted := sortByKey (fun x => -(x.score : Int)) sentence_scores
    let selected_sentences := sortByKey (fun x => (x.idx : Int))
      (sorted.take num_sentences)
    joinSep ('.' :: [' ']) (selected_sentences.map (·.sentence)) ++ ['.']

/-- Worker for `collapseWs`: `prevSpace` records being inside a whitespace
run, whose first character alone produces the replacement space. -/
def collapseWsAux (prevSpace : Bool) : List Char → List Char
  | [] => []
  | c :: rest =>
    if pyIsSpace c then
      if prevSpace then collapseWsAux true rest
      else ' ' :: collapseWsAux true rest
    else c :: collapseWsAux false rest

/-- `re.sub(r'\s+', ' ', text)`: replace each maximal whitespace run by a
single space. -/
def collapseWs (l : List Char) : List Char := collapseWsAux false l

/-- After the digits of `\d+`, match `\s+ lit` (a whitespace run followed by
a literal); returns the consumed count and the rest.  The greedy pieces are
deterministic: the whitespace run ends where the next literal begins. -/
def matchWsLit (lit : List Char) (t : List Char) : Option (Nat × List Char) :=
  let w := t.takeWhile pyIsSpace
  if w.length = 0 then none else
  match matchCS lit (t.drop w.length) with
  | none => none
  | some r => some (w.length + lit.length, r)

/-- Match `\s+\d+` (whitespace run then digit run); returns the consumed
count. -/
def matchWsDigits (t : List Char) : Option Nat :=
  let w := t.takeWhile pyIsSpace
  if w.length = 0 then none else
  let d := (t.drop w.length).takeWhile Char.isDigit
  if d.length = 0 then none else
  some (w.length + d.length)

/-- The tail of the `U.S.` citation pattern after its first digit:
`\d*\s+U\.S\.\s+\d+`. -/
def matchCitationUSTail (rest : List Char) : Option Nat :=
  let d1 := rest.takeWhile Char.isDigit
  match matchWsLit "U.S.".data (rest.drop d1.length) with
  | none => none
  | some (k1, t2) =>
    match matchWsDigits t2 with
    | none => none
    | some k2 => some (d1.length + k1 + k2)

/-- Matcher for `\b\d+\s+U\.S\.\s+\d+` at the current position (the
leading `\b` is checked by the caller); returns the number of characters
consumed minus one (the leading digit plus the tail). -/
def matchCitationUS : List Char → Option Nat
  | [] => none
  | c :: rest =>
    if c.isDigit then matchCitationUSTail rest
    else none

/-- The tail of the `F.` citation pattern after its first digit:
`\d*\s+F\.\d+d?\s+\d+`. -/
def matchCitationFTail (rest : List Char) : Option Nat :=
  let d1 := rest.takeWhile Char.isDigit
  match matchWsLit "F.".data (rest.drop d1.length) with
  | none => none
  | some (k1, t2) =>
    let dm := t2.takeWhile Char.isDigit
    if dm.length = 0 then none else
    let t3 := t2.drop dm.length
    let optD : Nat := match t3 with
      | 'd' :: _ => 1
      | _ => 0
    match matchWsDigits (t3.drop optD) with
    | none => none
    | some k2 => some (d1.length + k1 + dm.length + optD + k2)

/-- Matcher for `\b\d+\s+F\.\d+d?\s+\d+` at the current position; same
consumed-minus-one convention. -/
def matchCitationF : List Char → Option Nat
  | [] => none
  | c :: rest =>
    if c.isDigit then matchCitationFTail rest
    else none

/-- Generic `re.sub` scan for a matcher needing a leading word boundary
(`\b` before a digit or letter): replace each leftmost non-overlapping match
by `rep` and resume after it.  A matcher reports the characters its match
consumes minus one; the countdown `skip` then walks the scan past the
remaining matched characters without copying them to the output. -/
def subScan (m : List Char → Option Nat) (rep : List Char) (prev : Option Char)
    (skip : Nat) (t : List Char) : List Char :=
  match t with
  | [] => []
  | c :: rest =>
    match skip with
    | Nat.succ k => subScan m rep (some c) k rest
    | 0 =>
      if boundaryOk prev then
        match m (c :: rest) with
        | some k => rep ++ subScan m rep (some c) k rest
        | none => c :: subScan m rep (some c) 0 rest
      else c :: subScan m rep (some c) 0 rest

/-- Matcher for a nonempty literal with `\b` on both sides (the literals
below start and end with letters; the leading boundary is checked by
`subScan`); consumed-minus-one convention. -/
def matchLitWB (lit : List Char) (t : List Char) : Option Nat :=
  match matchCS lit t with
  | none => none
  | some r => if boundaryAfterOk r then some (lit.length - 1) else none

/-- `LegalDocumentSummarizer.preprocess_legal_text`. -/
def preprocess_legal_text (text : List Char) : List Char :=
  let t1 := collapseWs text
  let t2 := subScan matchCitationUS "[CITATION]".data none 0 t1
  let t3 := subScan matchCitationF "[CITATION]".data none 0 t2
  let t4 := subScan (matchLitWB "WHEREAS".data) "Given that".data none 0 t3
  let t5 := subScan (matchLitWB "NOW, THEREFORE".data) "Therefore".data none 0 t4
  let t6 := subScan (matchLitWB "IN WITNESS WHEREOF".data) "In confirmation".data
    none 0 t5
  pyStrip t6

/-- The external neural summarization capability
(`self.summarizer(chunk, max_length=…, min_length=…)`): a pure function of
the chunk and the two length parameters that may fail (raise). -/
def Capability : Type := List Char → Nat → Nat → Except Unit (List Char)

/-- The chunk-summarization loop of `abstractive_summarization`: summarize
each chunk longer than 50 characters after stripping; any raise aborts the
whole `try` block. -/
def summarizeChunks (f : Capability) (maxLen : Nat) :
    List (List Char) → Except Unit (List (List Char))
  | [] => .ok []
  | ch :: chs =>
    if 50 < (pyStrip ch).length then
      match f ch maxLen 30 with
      | .error e => .error e
      | .ok s =>
        match summarizeChunks f maxLen chs with
        | .error e => .error e
        | .ok ss => .ok (s :: ss)
    else summarizeChunks f maxLen chs

/-- `LegalDocumentSummarizer.abstractive_summarization`: `self.max_length`
is read from the state value `maxLen`; without a model, or on any exception,
fall back to `extractive_summarization(text)` (default 5 sentences). -/
def abstractive_summarization (cap : Option Capability) (maxLen : Nat)
    (text : List Char) : List Char :=
  match cap with
  | none => extractive_summarization text 5
  | some f =>
    let words := pySplitWs text
    let chunks := (posRange words.length 1024).map
      (fun i => joinSep [' '] (pySlice words i ((i : Int) + 1024)))
    match summarizeChunks f maxLen chunks with
    | .error _ => extractive_summarization text 5
    | .ok chunk_summaries =>
      if 1 < chunk_summaries.length then
        let combined_summary := joinSep [' '] chunk_summaries
        if maxLen < (pySplitWs combined_summary).length then
          match f combined_summary maxLen 50 with
          | .ok s => s
          | .error _ => extractive_summarization text 5
        else combined_summary
      else
        match chunk_summaries with
        | s :: _ => s
        | [] => "Unable to generate summary.".data

/-- The summary dictionary returned by `generate_summary`. -/
structure SummaryResult where
  summary : List Char
  summary_type : String
  length : String
  original_words : Nat
  summary_words : Nat
  compression_ratio : ℚ
  sentences : Nat

/-- `LegalDocumentSummarizer.generate_summary`, with the instance field
`self.max_length` threaded as explicit state (`st` before the call, second
component of the result after it).  The non-extractive branch saves the
field, overwrites it for the call, and restores it; the compression ratio
divides by the original word count and raises `ZeroDivisionError` when that
count is zero. -/
def generate_summary (cap : Option Capability) (st : Nat) (text : List Char)
    (summary_type : String) (length : String) :
    Except PyErr SummaryResult × Nat :=
  let processed_text := preprocess_legal_text text
  let params :=
    if length = "short" then ((3 : Nat), (80 : Nat))
    else if length = "medium" then (5, 150)
    else (8, 250)
  let res :=
    if summary_type = "extractive" then
      (extractive_summarization processed_text params.1, st)
    else
      let original_max_length := st
      let stSet := params.2
      (abstractive_summarization cap stSet processed_text, original_max_length)
  let summary := res.1
  let original_words := (pySplitWs text).length
  let summary_words := (pySplitWs summary).length
  if original_words = 0 then (.error .zeroDivisionError, res.2)
  else
    (.ok { summary := summary, summary_type := summary_type, length := length,
           original_words := original_words, summary_words := summary_words,
           compression_ratio :=
             ((original_words : ℚ) - (summary_words : ℚ)) / (original_words : ℚ) * 100,
           sentences := (splitTerm summary).length }, res.2)

/-!  Helper lemmas about the string primitives. -/

theorem pyStrip_eq_nil_iff (l : List Char) :
    pyStrip l = [] ↔ l.all pyIsSpace = true := by
  unfold pyStrip
  rw [List.reverse_eq_nil_iff, List.dropWhile_eq_nil_iff]
  simp only [List.mem_reverse, List.all_eq_true]
  constructor
  · intro h x hx
    have hsplit := List.takeWhile_append_dropWhile (p := pyIsSpace) (l := l)
    rw [← hsplit] at hx
    rcases List.mem_append.mp hx with hx | hx
    · exact List.mem_takeWhile_imp hx
    · exact h x hx
  · intro h x hx
    exact h x ((List.dropWhile_sublist _).subset hx)

theorem pyStrip_ne_nil_of_mem (l : List Char) (x : Char) (hx : x ∈ l)
    (hnx : pyIsSpace x = false) : pyStrip l ≠ [] := by
  intro h
  have := (pyStrip_eq_nil_iff l).mp h
  rw [List.all_eq_true] at this
  rw [this x hx] at hnx
  exact absurd hnx (by simp)

theorem pySplitWsAux_sound (l cur : List Char)
    (hcur : ∀ c ∈ cur, pyIsSpace c = false) :
    ∀ w ∈ pySplitWsAux cur l, w ≠ [] ∧ ∀ c ∈ w, pyIsSpace c = false := by
  induction l generalizing cur with
  | nil =>
    intro w hw
    rw [pySplitWsAux] at hw
    split at hw
    · exact absurd hw (by simp)
    · rename_i hne
      simp only [List.mem_singleton] at hw
      subst hw
      refine ⟨by simpa [List.isEmpty_iff] using hne, ?_⟩
      intro c hc
      exact hcur c (List.mem_reverse.mp hc)
  | cons c rest ih =>
    intro w hw
    rw [pySplitWsAux] at hw
    split at hw
    · rename_i hsp
      split at hw
      · exact ih [] (by simp) w hw
      · rcases List.mem_cons.mp hw with rfl | hw
        · rename_i hne
          refine ⟨by simpa [List.isEmpty_iff] using hne, ?_⟩
          intro d hd
          exact hcur d (List.mem_reverse.mp hd)
        · exact ih [] (by simp) w hw
    · rename_i hsp
      refine ih (c :: cur) ?_ w hw
      intro d hd
      rcases List.mem_cons.mp hd with rfl | hd
      · simpa using hsp
      · exact hcur d hd

theorem pySplitWs_sound (l : List Char) :
    ∀ w ∈ pySplitWs l, w ≠ [] ∧ ∀ c ∈ w, pyIsSpace c = false :=
  pySplitWsAux_sound l [] (by simp)

theorem pySplitWsAux_all_space (l : List Char) (h : l.all pyIsSpace = true) :
    pySplitWsAux [] l = [] := by
  induction l with
  | nil => rfl
  | cons c rest ih =>
    rw [List.all_cons, Bool.and_eq_true] at h
    rw [pySplitWsAux, if_pos h.1]
    simp only [List.isEmpty_nil, if_pos]
    exact ih h.2

theorem pySplitWs_of_all_space (l : List Char) (h : l.all pyIsSpace = true) :
    pySplitWs l = [] := pySplitWsAux_all_space l h

theorem splitTermAux_chars (cur l : List Char) (b : Bool) :
    ∀ seg ∈ splitTermAux cur b l, ∀ c ∈ seg, c ∈ cur ∨ c ∈ l := by
  induction l generalizing cur b with
  | nil =>
    intro seg hseg c hc
    rw [splitTermAux] at hseg
    simp only [List.mem_singleton] at hseg
    subst hseg
    exact Or.inl (List.mem_reverse.mp hc)
  | cons c rest ih =>
    intro seg hseg d hd
    rw [splitTermAux] at hseg
    split at hseg
    · split at hseg
      · rcases ih cur b seg hseg d hd with h | h
        · exact Or.inl h
        · exact Or.inr (List.mem_cons_of_mem _ h)
      · rcases List.mem_cons.mp hseg with rfl | hseg
        · exact Or.inl (List.mem_reverse.mp hd)
        · rcases ih [] true seg hseg d hd with h | h
          · exact absurd h (by simp)
          · exact Or.inr (List.mem_cons_of_mem _ h)
    · rcases ih (c :: cur) false seg hseg d hd with h | h
      · rcases List.mem_cons.mp h with rfl | h
        · exact Or.inr (List.mem_cons_self _ _)
        · exact Or.inl h
      · exact Or.inr (List.mem_cons_of_mem _ h)

theorem splitTerm_chars (l : List Char) :
    ∀ seg ∈ splitTerm l, ∀ c ∈ seg, c ∈ l := by
  intro seg hseg c hc
  rcases splitTermAux_chars [] l false seg hseg c hc with h | h
  · exact absurd h (by simp)
  · exact h

theorem runBefore_subset (w : List Char) : ∀ c ∈ runBefore w, c ∈ w :=
  fun c hc => (List.takeWhile_sublist _).subset hc

theorem runAfter_subset (w : List Char) : ∀ c ∈ runAfter w, c ∈ w := by
  intro c hc
  unfold runAfter at hc
  rw [List.mem_reverse] at hc
  exact List.mem_reverse.mp ((List.takeWhile_sublist _).subset hc)

theorem paraSplitAux_chars (l cur pw : List Char) :
    ∀ seg ∈ paraSplitAux cur pw l, ∀ c ∈ seg, c ∈ cur ∨ c ∈ pw ∨ c ∈ l := by
  induction l generalizing cur pw with
  | nil =>
    intro seg hseg d hd
    rw [paraSplitAux] at hseg
    split at hseg
    · rcases List.mem_cons.mp hseg with rfl | hseg
      · rcases List.mem_append.mp hd with h | h
        · exact Or.inl (List.mem_reverse.mp h)
        · exact Or.inr (Or.inl
            (List.mem_reverse.mp (runBefore_subset _ _ h)))
      · simp only [List.mem_singleton] at hseg
        subst hseg
        exact Or.inr (Or.inl (List.mem_reverse.mp (runAfter_subset _ _ hd)))
    · simp only [List.mem_singleton] at hseg
      subst hseg
      rcases List.mem_append.mp hd with h | h
      · exact Or.inl (List.mem_reverse.mp h)
      · exact Or.inr (Or.inl (List.mem_reverse.mp h))
  | cons c rest ih =>
    intro seg hseg d hd
    rw [paraSplitAux] at hseg
    split at hseg
    · rcases ih cur (c :: pw) seg hseg d hd with h | h | h
      · exact Or.inl h
      · rcases List.mem_cons.mp h with rfl | h
        · exact Or.inr (Or.inr (List.mem_cons_self _ _))
        · exact Or.inr (Or.inl h)
      · exact Or.inr (Or.inr (List.mem_cons_of_mem _ h))
    · split at hseg
      · rcases List.mem_cons.mp hseg with rfl | hseg
        · rcases List.mem_append.mp hd with h | h
          · exact Or.inl (List.mem_reverse.mp h)
          · exact Or.inr (Or.inl
              (List.mem_reverse.mp (runBefore_subset _ _ h)))
        · rcases ih (c :: (runAfter pw.reverse).reverse) [] seg hseg d hd
            with h | h | h
          · rcases List.mem_cons.mp h with rfl | h
            · exact Or.inr (Or.inr (List.mem_cons_self _ _))
            · rw [List.mem_reverse] at h
              exact Or.inr (Or.inl
                (List.mem_reverse.mp (runAfter_subset _ _ h)))
          · exact absurd h (by simp)
          · exact Or.inr (Or.inr (List.mem_cons_of_mem _ h))
      · rcases ih (c :: (pw ++ cur)) [] seg hseg d hd with h | h | h
        · rcases List.mem_cons.mp h with rfl | h
          · exact Or.inr (Or.inr (List.mem_cons_self _ _))
          · rcases List.mem_append.mp h with h | h
            · exact Or.inr (Or.inl h)
            · exact Or.inl h
        · exact absurd h (by simp)
        · exact Or.inr (Or.inr (List.mem_cons_of_mem _ h))

theorem paraSplit_chars (l : List Char) :
    ∀ seg ∈ paraSplit l, ∀ c ∈ seg, c ∈ l := by
  intro seg hseg c hc
  rcases paraSplitAux_chars l [] [] seg hseg c hc with h | h | h
  · exact absurd h (by simp)
  · exact absurd h (by simp)
  · exact h

theorem space_toLower (c : Char) (h : pyIsSpace c = true) : c.toLower = c := by
  simp only [pyIsSpace, Bool.or_eq_true, decide_eq_true_eq] at h
  rcases h with ((((rfl | rfl) | rfl) | rfl) | rfl) | rfl <;> decide

theorem space_not_alpha (c : Char) (h : pyIsSpace c = true) :
    c.isAlpha = false := by
  simp only [pyIsSpace, Bool.or_eq_true, decide_eq_true_eq] at h
  rcases h with ((((rfl | rfl) | rfl) | rfl) | rfl) | rfl <;> decide

/-- `\b[a-zA-Z]+\b` finds nothing in a text without letters. -/
theorem tokenizeAux_no_alpha (prev : Option Char) (l : List Char)
    (h : ∀ c ∈ l, c.isAlpha = false) : tokenizeAux prev l = [] := by
  induction l generalizing prev with
  | nil => rw [tokenizeAux]
  | cons c rest ih =>
    rw [tokenizeAux]
    have hc : c.isAlpha = false := h c (List.mem_cons_self c rest)
    rw [if_neg (by simp [hc])]
    exact ih (some c) (fun d hd => h d (List.mem_cons_of_mem c hd))

theorem tokenize_all_space (text : List Char) (h : text.all pyIsSpace = true) :
    tokenize text = [] := by
  rw [List.all_eq_true] at h
  refine tokenizeAux_no_alpha none _ ?_
  intro c hc
  obtain ⟨d, hd, rfl⟩ := List.mem_map.mp hc
  rw [space_toLower d (h d hd)]
  exact space_not_alpha d (h d hd)

/-- Whether a pattern alternative starts with a letter (all of them do). -/
def headAlpha : List Char → Bool
  | [] => false
  | a :: _ => a.isAlpha

theorem tryAlt_space_head (alt : List Char) (ha : headAlpha alt = true)
    (c : Char) (hc : pyIsSpace c = true) (rest : List Char) :
    tryAlt alt (c :: rest) = none := by
  match alt, ha with
  | a :: as, ha =>
    have haa : a.isAlpha = true := by simpa [headAlpha] using ha
    have : c.toLower ≠ a := by
      rw [space_toLower c hc]
      intro h
      rw [h] at hc
      have := space_not_alpha a (h ▸ hc)
      rw [this] at haa
      exact absurd haa (by simp)
    rw [tryAlt]
    have : matchCI (a :: as) (c :: rest) = none := by
      rw [matchCI, if_neg this]
    rw [this]

theorem tryAlts_space_head (alts : List (List Char))
    (ha : alts.all headAlpha = true) (c : Char) (hc : pyIsSpace c = true)
    (rest : List Char) : tryAlts alts (c :: rest) = none := by
  induction alts with
  | nil => rw [tryAlts]
  | cons alt more ih =>
    rw [List.all_cons, Bool.and_eq_true] at ha
    rw [tryAlts, tryAlt_space_head alt ha.1 c hc rest]
    exact ih ha.2

/-- A phrase pattern finds nothing in an all-whitespace text. -/
theorem scanPattern_all_space (alts : List (List Char))
    (ha : alts.all headAlpha = true) (prev : Option Char) (skip : Nat)
    (l : List Char) (h : l.all pyIsSpace = true) :
    scanPattern alts prev skip l = [] := by
  induction l generalizing prev skip with
  | nil => rfl
  | cons c rest ih =>
    rw [List.all_cons, Bool.and_eq_true] at h
    match skip with
    | Nat.succ k => exact ih (some c) k h.2
    | 0 =>
      rw [scanPattern]
      split
      · rw [tryAlts_space_head alts ha c h.1 rest]
        exact ih (some c) 0 h.2
      · exact ih (some c) 0 h.2

/-- The keys of a `Counter` are distinct. -/
theorem countOrdered_keys_nodup (l : List (List Char)) :
    ((countOrdered l).map Prod.fst).Nodup := by
  suffices h : ∀ (l : List (List Char)) (acc : List (List Char × Nat)),
      (acc.map Prod.fst).Nodup →
      ((l.foldl
        (fun acc w =>
          if acc.any (fun p => p.1 = w) then
            acc.map (fun p => if p.1 = w then (p.1, p.2 + 1) else p)
          else acc ++ [(w, 1)]) acc).map Prod.fst).Nodup by
    exact h l [] (by simp)
  intro l
  induction l with
  | nil => intro acc hacc; simpa using hacc
  | cons w ws ih =>
    intro acc hacc
    simp only [List.foldl_cons]
    split
    · refine ih _ ?_
      have : (acc.map (fun p => if p.1 = w then (p.1, p.2 + 1) else p)).map Prod.fst
          = acc.map Prod.fst := by
        rw [List.map_map]
        refine List.map_congr_left ?_
        intro p _
        by_cases hp : p.1 = w <;> simp [hp]
      rw [this]
      exact hacc
    · rename_i hany
      refine ih _ ?_
      rw [List.map_append, List.nodup_append]
      refine ⟨hacc, by simp, ?_⟩
      intro x hx hxmem
      simp only [List.map_cons, List.map_nil, List.mem_singleton] at hxmem
      subst hxmem
      obtain ⟨p, hp, hpw⟩ := List.mem_map.mp hx
      exact hany (List.any_eq_true.mpr ⟨p, hp, by simp [hpw]⟩)

theorem dropWhile_head_not (p : Char → Bool) (l : List Char) (c : Char)
    (t : List Char) (h : l.dropWhile p = c :: t) : p c = false := by
  induction l with
  | nil => simp [List.dropWhile] at h
  | cons a l ih =>
    rw [List.dropWhile_cons] at h
    split at h
    · exact ih h
    · rename_i ha
      obtain ⟨rfl, -⟩ := List.cons.injEq _ _ _ _ ▸ h
      simpa using ha

/-- A nonempty stripped string contains a non-whitespace character. -/
theorem pyStrip_has_nonspace (l : List Char) (h : pyStrip l ≠ []) :
    ∃ c ∈ pyStrip l, pyIsSpace c = false := by
  unfold pyStrip at h ⊢
  cases hB : ((l.dropWhile pyIsSpace).reverse.dropWhile pyIsSpace) with
  | nil => rw [hB] at h; exact absurd rfl h
  | cons c t =>
    refine ⟨c, ?_, dropWhile_head_not _ _ _ _ hB⟩
    simp

theorem joinSep_cons_eq (sep x : List Char) (xs : List (List Char)) :
    ∃ r, joinSep sep (x :: xs) = x ++ r := by
  cases xs with
  | nil => exact ⟨[], by simp [joinSep]⟩
  | cons y ys => exact ⟨sep ++ joinSep sep (y :: ys), by simp [joinSep]⟩

theorem mem_joinSep_head (sep x : List Char) (xs : List (List Char)) (c : Char)
    (hc : c ∈ x) : c ∈ joinSep sep (x :: xs) := by
  obtain ⟨r, hr⟩ := joinSep_cons_eq sep x xs
  rw [hr]
  exact List.mem_append_left r hc

theorem posRange_length (n s : Nat) :
    (posRange n s).length = (n + s - 1) / s := by
  simp [posRange]

theorem posRange_zero (s : Nat) (hs : 1 ≤ s) : posRange 0 s = [] := by
  unfold posRange
  rw [Nat.zero_add, Nat.div_eq_of_lt (by omega)]
  rfl

theorem posRange_mem_lt (n s : Nat) (hs : 1 ≤ s) (i : Nat)
    (hi : i ∈ posRange n s) : i < n := by
  unfold posRange at hi
  obtain ⟨k, hk, rfl⟩ := List.mem_map.mp hi
  rw [List.mem_range] at hk
  have hd : (n + s - 1) / s * s ≤ n + s - 1 := Nat.div_mul_le_self _ _
  have h3 : (k + 1) * s ≤ n + s - 1 :=
    le_trans (Nat.mul_le_mul hk (Nat.le_refl s)) hd
  rw [Nat.succ_mul] at h3
  omega

theorem posRange_single (n s : Nat) (hn : 1 ≤ n) (hns : n ≤ s) :
    posRange n s = [0] := by
  unfold posRange
  have : (n + s - 1) / s = 1 :=
    Nat.div_eq_of_lt_le (by omega) (by omega)
  rw [this]
  simp [List.range_succ]

/-- Ceiling division is antitone in the divisor. -/
theorem ceilDiv_antitone (n s₁ s₂ : Nat) (h2 : 1 ≤ s₂) (h12 : s₂ ≤ s₁) :
    (n + s₁ - 1) / s₁ ≤ (n + s₂ - 1) / s₂ := by
  have h1 : 1 ≤ s₁ := le_trans h2 h12
  have hd := Nat.div_add_mod (n + s₂ - 1) s₂
  have hm : (n + s₂ - 1) % s₂ < s₂ := Nat.mod_lt _ (by omega)
  have hnq : n ≤ s₂ * ((n + s₂ - 1) / s₂) := by omega
  have hnq1 : n ≤ s₁ * ((n + s₂ - 1) / s₂) :=
    le_trans hnq (Nat.mul_le_mul h12 (Nat.le_refl _))
  have hlt : (n + s₁ - 1) / s₁ < (n + s₂ - 1) / s₂ + 1 := by
    rw [Nat.div_lt_iff_lt_mul (by omega : 0 < s₁)]
    have he : ((n + s₂ - 1) / s₂ + 1) * s₁ = s₁ * ((n + s₂ - 1) / s₂) + s₁ := by
      ring
    rw [he]
    omega
  omega

theorem pySlice_all (l : List α) (stop : Int) (h0 : 0 ≤ stop)
    (hlen : (l.length : Int) ≤ stop) : pySlice l 0 stop = l := by
  simp only [pySlice, List.drop_zero, Nat.sub_zero]
  rw [if_neg (by omega)]
  have hmin : min stop.toNat l.length = l.length := by omega
  rw [hmin, List.take_length]

theorem pySlice_subset (l : List α) (start : Nat) (stop : Int) :
    ∀ x ∈ pySlice l start stop, x ∈ l := by
  intro x hx
  simp only [pySlice] at hx
  exact (List.drop_sublist _ _).subset ((List.take_sublist _ _).subset hx)

theorem pySlice_ne_nil (l : List α) (i : Nat) (c : Int) (hi : i < l.length)
    (hc : 1 ≤ c) : pySlice l i ((i : Int) + c) ≠ [] := by
  simp only [pySlice]
  intro h
  rw [if_neg (by omega)] at h
  have h1 : ((i : Int) + c).toNat = i + c.toNat := by omega
  rw [h1] at h
  have h2 : (l.drop i).length = l.length - i := List.length_drop i l
  have := congrArg List.length h
  rw [List.length_take, h2] at this
  simp only [List.length_nil] at this
  omega

/-!  Lemmas about the chunkers. -/

theorem chunk_by_words_step (c o : Int) (text : List Char) (h : 0 < c - o) :
    chunk_by_words c o text =
      .ok (buildWordChunks (pySplitWs text) c
        (posRange (pySplitWs text).length (c - o).toNat) 0) := by
  unfold chunk_by_words pyRange
  simp only [if_neg (show ¬(c - o = 0) by omega), if_neg (show ¬(c - o < 0) by omega)]
  rfl

theorem chunk_by_sentences_step (c o : Int) (text : List Char) (h : 0 < c - o) :
    chunk_by_sentences c o text =
      .ok (buildSentenceChunks (sentenceUnits text) c
        (posRange (sentenceUnits text).length (c - o).toNat) 0) := by
  unfold chunk_by_sentences pyRange
  simp only [if_neg (show ¬(c - o = 0) by omega), if_neg (show ¬(c - o < 0) by omega)]
  rfl

theorem chunk_by_paragraphs_step (c o : Int) (text : List Char) (h : 0 < c - o) :
    chunk_by_paragraphs c o text =
      .ok (buildParagraphChunks (paragraphUnits text) c
        (posRange (paragraphUnits text).length (c - o).toNat) 0) := by
  unfold chunk_by_paragraphs pyRange
  simp only [if_neg (show ¬(c - o = 0) by omega), if_neg (show ¬(c - o < 0) by omega)]
  rfl

theorem sentenceUnits_has_nonspace (text : List Char) :
    ∀ u ∈ sentenceUnits text, ∃ c ∈ u, pyIsSpace c = false := by
  intro u hu
  obtain ⟨s, -, hs⟩ := List.mem_filterMap.mp hu
  split at hs
  · obtain rfl := Option.some.injEq _ _ ▸ hs
    rename_i hne
    exact pyStrip_has_nonspace s hne
  · exact absurd hs (by simp)

theorem paragraphUnits_has_nonspace (text : List Char) :
    ∀ u ∈ paragraphUnits text, ∃ c ∈ u, pyIsSpace c = false := by
  intro u hu
  obtain ⟨s, -, hs⟩ := List.mem_filterMap.mp hu
  split at hs
  · obtain rfl := Option.some.injEq _ _ ▸ hs
    rename_i hne
    exact pyStrip_has_nonspace s hne
  · exact absurd hs (by simp)

theorem joinSep_strip_ne_nil (sep u : List Char) (us : List (List Char))
    (hu : ∃ c ∈ u, pyIsSpace c = false) :
    pyStrip (joinSep sep (u :: us)) ≠ [] := by
  obtain ⟨c, hc, hcs⟩ := hu
  exact pyStrip_ne_nil_of_mem _ c (mem_joinSep_head sep u us c hc) hcs

/-- The word slice at any admissible index yields non-blank content. -/
theorem wordContent_ne_nil (text : List Char) (c : Int) (i : Nat)
    (hi : i < (pySplitWs text).length) (hc : 1 ≤ c) :
    pyStrip (joinSep [' '] (pySlice (pySplitWs text) i ((i : Int) + c))) ≠ [] := by
  have hne := pySlice_ne_nil (pySplitWs text) i c hi hc
  obtain ⟨w, ws', hcons⟩ : ∃ w ws',
      pySlice (pySplitWs text) i ((i : Int) + c) = w :: ws' := by
    cases h : pySlice (pySplitWs text) i ((i : Int) + c) with
    | nil => exact absurd h hne
    | cons a b => exact ⟨a, b, rfl⟩
  have hw : w ∈ pySplitWs text :=
    pySlice_subset _ _ _ w (hcons ▸ List.mem_cons_self w ws')
  obtain ⟨hwne, hwns⟩ := pySplitWs_sound text w hw
  obtain ⟨c0, t0, rfl⟩ : ∃ c0 t0, w = c0 :: t0 := by
    cases w with
    | nil => exact absurd rfl hwne
    | cons a b => exact ⟨a, b, rfl⟩
  rw [hcons]
  exact joinSep_strip_ne_nil _ _ _ ⟨c0, List.mem_cons_self c0 t0,
    hwns c0 (List.mem_cons_self c0 t0)⟩

theorem buildWordChunks_length (words : List (List Char)) (c : Int)
    (idxs : List Nat) (k : Nat)
    (hall : ∀ i ∈ idxs,
      pyStrip (joinSep [' '] (pySlice words i ((i : Int) + c))) ≠ []) :
    (buildWordChunks words c idxs k).length = idxs.length := by
  induction idxs generalizing k with
  | nil => rfl
  | cons i is ih =>
    simp only [buildWordChunks]
    rw [if_pos (hall i (List.mem_cons_self i is))]
    simp only [List.length_cons]
    rw [ih (k + 1) (fun j hj => hall j (List.mem_cons_of_mem i hj))]

/-- The chunk count of word chunking for a valid configuration is the
ceiling of the word count divided by the step. -/
theorem chunk_by_words_count (c o : Int) (text : List Char) (ho : 0 ≤ o)
    (hoc : o < c) :
    ∃ l, chunk_by_words c o text = .ok l ∧
      l.length = ((pySplitWs text).length + (c - o).toNat - 1) / (c - o).toNat := by
  refine ⟨_, chunk_by_words_step c o text (by omega), ?_⟩
  rw [buildWordChunks_length]
  · exact posRange_length _ _
  · intro i hi
    exact wordContent_ne_nil text c i
      (posRange_mem_lt _ _ (by omega) i hi) (by omega)

/-!  Definitions used only to state the claims about single-chunk
segmentation (derived from the chunk construction in the source). -/

/-- The unit list the configured chunking method splits the text into. -/
def unitsOf (method : String) (text : List Char) : List (List Char) :=
  if method = "words" then pySplitWs text
  else if method = "sentences" then sentenceUnits text
  else paragraphUnits text

/-- How the configured chunking method reassembles a chunk's units. -/
def joinOf (method : String) (u : List (List Char)) : List Char :=
  if method = "words" then joinSep [' '] u
  else if method = "sentences" then joinSep ('.' :: [' ']) u ++ ['.']
  else joinSep ('\n' :: ['\n']) u

/-- The one chunk the source emits when a single window covers every unit. -/
def mkSingleChunk (method : String) (u : List (List Char)) : Chunk :=
  if method = "words" then
    { id := 1, content := pyStrip (joinOf method u), word_count := u.length,
      sentence_count := (splitTerm (joinOf method u)).length,
      start_index := 0, end_index := u.length }
  else if method = "sentences" then
    { id := 1, content := pyStrip (joinOf method u),
      word_count := (pySplitWs (joinOf method u)).length,
      sentence_count := u.length, start_index := 0, end_index := u.length }
  else
    { id := 1, content := pyStrip (joinOf method u),
      word_count := (pySplitWs (joinOf method u)).length,
      sentence_count := (splitTerm (joinOf method u)).length,
      paragraph_count := some u.length,
      start_index := 0, end_index := u.length }

/-!  The claims. -/

/-- C1 (code evaluated at the failing input): on the spec's scenario text,
`extract_key_phrases` returns no phrase at all — `re.findall` with a
capturing group yields only the group (the bare trigger, here "Subject to",
10 characters), which the 20-character minimum then discards — contradicting
the claim that exactly one phrase beginning "subject to the terms herein" is
returned. -/
theorem claim1_phrase_matcher_returns_nothing :
    extract_key_phrases
      "Subject to the terms herein, the tenant shall pay rent.".data 20 = [] := by
  decide

/-- C5: on "The party shall pay the party shall pay rent." with
`minFrequency = 2`, the keyword result contains "shall" (frequency 2,
category legal_actions, score 4) and "party" (frequency 2, category parties,
score 4), and contains no keyword for "rent". -/
theorem claim5_scenario_keywords :
    ({ term := "shall".data, frequency := 2, category := "legal_actions",
       score := 4 } : Keyword) ∈
      extract_statistical_keywords
        "The party shall pay the party shall pay rent.".data 2 50
    ∧ ({ term := "party".data, frequency := 2, category := "parties",
         score := 4 } : Keyword) ∈
      extract_statistical_keywords
        "The party shall pay the party shall pay rent.".data 2 50
    ∧ "rent".data ∉
      (extract_statistical_keywords
        "The party shall pay the party shall pay rent.".data 2 50).map
        Keyword.term := by
  decide

/-- C2 (counterexample): the text "a b" has 2 word units, fewer than
`chunkSize = 3`, and `overlap = 2 < 3` is admissible, yet word segmentation
produces two chunks (windows start at 0 and 1), not exactly one. -/
theorem claim2_counterexample :
    (chunk_by_words 3 2 "a b".data).map List.length = .ok 2 := by
  decide

/-- C3 (counterexample): with `overlap = 3 > chunkSize = 2` — an invalid
configuration — segmentation does not fail: it silently returns an empty
chunk list (`range` with a negative step is empty). -/
theorem claim3_counterexample :
    process_document "words" 2 3 "a b c d".data = .ok [] := by
  decide

/-- C9: `generate_summary` is observationally pure with respect to the
summarizer's `max_length` field: for every capability, initial field value,
text, summary type and length, the field after the call equals its value
before the call — the temporary reassignment in the non-extractive branch is
restored and never observable afterwards. -/
theorem claim9_max_length_restored (cap : Option Capability) (st : Nat)
    (text : List Char) (summary_type length : String) :
    (generate_summary cap st text summary_type length).2 = st := by
  simp only [generate_summary]
  split
  · split <;> rfl
  · split <;> rfl

/-- C10: when no fragment of the terminator split exceeds 20 characters
after stripping (in particular on empty or whitespace-only text), the
extractive summarizer returns the one-character string "." for every
positive sentence target. -/
theorem claim10_degenerate_extractive_dot (text : List Char) (n : Nat)
    (hn : 0 < n)
    (h : (splitTerm text).all (fun s => (pyStrip s).length ≤ 20) = true) :
    extractive_summarization text n = ".".data := by
  rw [List.all_eq_true] at h
  have hs : survivingSentences text = [] := by
    unfold survivingSentences
    rw [List.filterMap_eq_nil]
    intro s hsl
    rw [if_neg]
    intro hcond
    have := h s hsl
    simp only [decide_eq_true_eq] at this
    omega
  simp only [extractive_summarization, hs]
  rw [if_pos (by simp : ([] : List (List Char)).length ≤ n)]
  rfl

/-- Witness for C10 at the text "Hi. Bye." and target 3. -/
theorem claim10_witness :
    (0 < 3
      ∧ (splitTerm "Hi. Bye.".data).all
          (fun s => (pyStrip s).length ≤ 20) = true)
    ∧ extractive_summarization "Hi. Bye.".data 3 = ".".data :=
  ⟨⟨by decide, by decide⟩,
    claim10_degenerate_extractive_dot "Hi. Bye.".data 3 (by decide) (by decide)⟩

theorem sentenceUnits_all_space (text : List Char)
    (h : text.all pyIsSpace = true) : sentenceUnits text = [] := by
  rw [List.all_eq_true] at h
  unfold sentenceUnits
  rw [List.filterMap_eq_nil]
  intro s hsl
  rw [if_neg]
  intro hcond
  refine hcond ((pyStrip_eq_nil_iff s).mpr ?_)
  rw [List.all_eq_true]
  intro c hc
  exact h c (splitTerm_chars text s hsl c hc)

theorem paragraphUnits_all_space (text : List Char)
    (h : text.all pyIsSpace = true) : paragraphUnits text = [] := by
  rw [List.all_eq_true] at h
  unfold paragraphUnits
  rw [List.filterMap_eq_nil]
  intro s hsl
  rw [if_neg]
  intro hcond
  refine hcond ((pyStrip_eq_nil_iff s).mpr ?_)
  rw [List.all_eq_true]
  intro c hc
  exact h c (paraSplit_chars text s hsl c hc)

theorem foldl_scan_nil (text : List Char) (h : text.all pyIsSpace = true)
    (f : List Char → Option (List Char)) :
    ∀ (ps : List (List (List Char))) (acc : List (List Char)),
      (∀ alts ∈ ps, alts.all headAlpha = true) →
      ps.foldl (fun acc alts =>
        acc ++ (scanPattern alts none 0 text).filterMap f) acc = acc := by
  intro ps
  induction ps with
  | nil => intro acc _; rfl
  | cons alts more ih =>
    intro acc hall
    simp only [List.foldl_cons]
    rw [scanPattern_all_space alts (hall alts (List.mem_cons_self alts more))
      none 0 text h]
    simp only [List.filterMap_nil, List.append_nil]
    exact ih acc (fun a ha => hall a (List.mem_cons_of_mem alts ha))

/-- C4: on empty or all-whitespace text, every segmentation method with a
valid configuration returns zero chunks, keyword and phrase extraction
return zero results, all without raising — while `generate_summary` raises
`ZeroDivisionError` from the compression-ratio division, whatever the type,
length, capability and state. -/
theorem claim4_degenerate_inputs (text : List Char) (c o : Int)
    (mf mk mp : Nat) (cap : Option Capability) (st : Nat) (ty ln : String)
    (h : text.all pyIsSpace = true) (ho : 0 ≤ o) (hoc : o < c) :
    process_document "words" c o text = .ok []
    ∧ process_document "sentences" c o text = .ok []
    ∧ process_document "paragraphs" c o text = .ok []
    ∧ extract_statistical_keywords text mf mk = []
    ∧ extract_key_phrases text mp = []
    ∧ (generate_summary cap st text ty ln).1 = .error .zeroDivisionError := by
  have hw : pySplitWs text = [] := pySplitWs_of_all_space text h
  refine ⟨?_, ?_, ?_, ?_, ?_, ?_⟩
  · rw [process_document, if_pos rfl, chunk_by_words_step c o text (by omega),
      hw]
    rw [show ([] : List (List Char)).length = 0 from rfl,
      posRange_zero _ (by omega)]
    rfl
  · rw [process_document, if_neg (by decide), if_pos rfl,
      chunk_by_sentences_step c o text (by omega), sentenceUnits_all_space text h]
    rw [show ([] : List (List Char)).length = 0 from rfl,
      posRange_zero _ (by omega)]
    rfl
  · rw [process_document, if_neg (by decide), if_neg (by decide), if_pos rfl,
      chunk_by_paragraphs_step c o text (by omega),
      paragraphUnits_all_space text h]
    rw [show ([] : List (List Char)).length = 0 from rfl,
      posRange_zero _ (by omega)]
    rfl
  · unfold extract_statistical_keywords keywordCandidates
    rw [tokenize_all_space text h]
    simp [sortByKey, countOrdered]
  · unfold extract_key_phrases
    rw [foldl_scan_nil text h _ phrase_patterns [] (by decide)]
    simp [dedupe]
  · simp only [generate_summary, hw]
    rfl

/-- Witness for C4 at the two-space text with a valid chunk configuration
and the default extraction and summary parameters. -/
theorem claim4_witness :
    ("  ".data.all pyIsSpace = true ∧ (0 : Int) ≤ 0 ∧ (0 : Int) < 2)
    ∧ process_document "words" 2 0 "  ".data = .ok []
    ∧ process_document "sentences" 2 0 "  ".data = .ok []
    ∧ process_document "paragraphs" 2 0 "  ".data = .ok []
    ∧ extract_statistical_keywords "  ".data 2 50 = []
    ∧ extract_key_phrases "  ".data 20 = []
    ∧ (generate_summary none 150 "  ".data "extractive" "medium").1 =
        .error .zeroDivisionError := by
  have h := claim4_degenerate_inputs "  ".data 2 0 2 50 20 none 150
    "extractive" "medium" (by decide) (by decide) (by decide)
  exact ⟨⟨by decide, by decide, by decide⟩, h.1, h.2.1, h.2.2.1, h.2.2.2.1,
    h.2.2.2.2.1, h.2.2.2.2.2⟩

theorem map_pyRange_error_iff (n : Nat) (step : Int)
    (f : List Nat → List Chunk) :
    (Except.map f (pyRange n step) = .error .valueError) ↔ step = 0 := by
  unfold pyRange
  by_cases h0 : step = 0
  · simp [h0, Except.map]
  · by_cases hneg : step < 0 <;> simp [h0, hneg, Except.map]

/-- C3 (amended): segmentation raises `ValueError` exactly when the window
step is zero (`overlap = chunkSize`) or the method is unknown; when
`overlap > chunkSize` it silently returns an empty chunk list instead of
failing fast, and it never raises in any other configuration. -/
theorem claim3_amended_error_behaviour (text : List Char) (c o : Int)
    (m : String) :
    ((process_document "words" c o text = .error .valueError) ↔ c = o)
    ∧ ((process_document "sentences" c o text = .error .valueError) ↔ c = o)
    ∧ ((process_document "paragraphs" c o text = .error .valueError) ↔ c = o)
    ∧ (c < o → process_document "words" c o text = .ok [])
    ∧ (m ≠ "words" → m ≠ "sentences" → m ≠ "paragraphs" →
        process_document m c o text = .error .valueError) := by
  refine ⟨?_, ?_, ?_, ?_, ?_⟩
  · rw [process_document, if_pos rfl]
    unfold chunk_by_words
    rw [map_pyRange_error_iff]
    omega
  · rw [process_document, if_neg (by decide), if_pos rfl]
    unfold chunk_by_sentences
    rw [map_pyRange_error_iff]
    omega
  · rw [process_document, if_neg (by decide), if_neg (by decide), if_pos rfl]
    unfold chunk_by_paragraphs
    rw [map_pyRange_error_iff]
    omega
  · intro hlt
    rw [process_document, if_pos rfl]
    unfold chunk_by_words pyRange
    simp only [if_neg (show ¬(c - o = 0) by omega),
      if_pos (show c - o < 0 by omega)]
    rfl
  · intro h1 h2 h3
    rw [process_document, if_neg h1, if_neg h2, if_neg h3]

/-- Witness for the amended C3: `overlap = chunkSize` raises for all three
methods, `overlap > chunkSize` silently yields no chunks, and an unknown
method raises. -/
theorem claim3_amended_witness :
    ((process_document "words" 3 3 "a b c".data = .error .valueError) ↔
        (3 : Int) = 3)
    ∧ ((process_document "sentences" 3 3 "a b c".data = .error .valueError) ↔
        (3 : Int) = 3)
    ∧ ((process_document "paragraphs" 3 3 "a b c".data = .error .valueError) ↔
        (3 : Int) = 3)
    ∧ process_document "words" 2 5 "a b c".data = .ok []
    ∧ process_document "bogus" 3 1 "a b c".data = .error .valueError := by
  have h1 := claim3_amended_error_behaviour "a b c".data 3 3 "bogus"
  have h2 := claim3_amended_error_behaviour "a b c".data 2 5 "bogus"
  have h3 := claim3_amended_error_behaviour "a b c".data 3 1 "bogus"
  exact ⟨h1.1, h1.2.1, h1.2.2.1, h2.2.2.2.1 (by decide),
    h3.2.2.2.2 (by decide) (by decide) (by decide)⟩

/-- C2 (amended): when the text has at least one unit and the window step
`chunkSize − overlap` covers all of them (with `0 ≤ overlap < chunkSize`),
segmentation yields exactly one chunk, containing all the units. -/
theorem claim2_amended_single_chunk (text : List Char) (c o : Int) (m : String)
    (hm : m = "words" ∨ m = "sentences" ∨ m = "paragraphs")
    (ho : 0 ≤ o) (hoc : o < c)
    (h1 : 1 ≤ (unitsOf m text).length)
    (h2 : ((unitsOf m text).length : Int) ≤ c - o) :
    process_document m c o text = .ok [mkSingleChunk m (unitsOf m text)] := by
  rcases hm with rfl | rfl | rfl
  · replace h1 : 1 ≤ (pySplitWs text).length := by simpa [unitsOf] using h1
    replace h2 : ((pySplitWs text).length : Int) ≤ c - o := by
      simpa [unitsOf] using h2
    rw [process_document, if_pos rfl, chunk_by_words_step c o text (by omega)]
    rw [posRange_single _ _ h1 (by omega)]
    have hsl : pySlice (pySplitWs text) 0 (((0 : Nat) : Int) + c) =
        pySplitWs text := by
      rw [show ((0 : Nat) : Int) + c = c by simp]
      exact pySlice_all _ c (by omega) (by omega)
    obtain ⟨w, ws, hw⟩ : ∃ w ws, pySplitWs text = w :: ws := by
      cases hcase : pySplitWs text with
      | nil => rw [hcase] at h1; simp at h1
      | cons a b => exact ⟨a, b, rfl⟩
    have hhead := pySplitWs_sound text w (hw ▸ List.mem_cons_self w ws)
    obtain ⟨c0, t0, hc0⟩ : ∃ c0 t0, w = c0 :: t0 := by
      cases hcase : w with
      | nil => exact absurd hcase hhead.1
      | cons a b => exact ⟨a, b, rfl⟩
    have hcond : pyStrip (joinSep [' ']
        (pySlice (pySplitWs text) 0 (((0 : Nat) : Int) + c))) ≠ [] := by
      rw [hsl, hw]
      refine joinSep_strip_ne_nil _ _ _ ⟨c0, ?_, ?_⟩
      · rw [hc0]; exact List.mem_cons_self c0 t0
      · exact hhead.2 c0 (hc0 ▸ List.mem_cons_self c0 t0)
    simp only [buildWordChunks, if_pos hcond]
    rw [hsl]
    simp [mkSingleChunk, unitsOf, joinOf]
  · replace h1 : 1 ≤ (sentenceUnits text).length := by simpa [unitsOf] using h1
    replace h2 : ((sentenceUnits text).length : Int) ≤ c - o := by
      simpa [unitsOf] using h2
    rw [process_document, if_neg (by decide), if_pos rfl,
      chunk_by_sentences_step c o text (by omega)]
    rw [posRange_single _ _ h1 (by omega)]
    have hsl : pySlice (sentenceUnits text) 0 (((0 : Nat) : Int) + c) =
        sentenceUnits text := by
      rw [show ((0 : Nat) : Int) + c = c by simp]
      exact pySlice_all _ c (by omega) (by omega)
    have hcond : pyStrip (joinSep ('.' :: [' '])
        (pySlice (sentenceUnits text) 0 (((0 : Nat) : Int) + c)) ++ ['.']) ≠ [] := by
      refine pyStrip_ne_nil_of_mem _ '.' ?_ (by decide)
      exact List.mem_append_right _ (List.mem_singleton.mpr rfl)
    simp only [buildSentenceChunks, if_pos hcond]
    rw [hsl]
    simp [mkSingleChunk, unitsOf, joinOf]
  · replace h1 : 1 ≤ (paragraphUnits text).length := by
      simpa [unitsOf] using h1
    replace h2 : ((paragraphUnits text).length : Int) ≤ c - o := by
      simpa [unitsOf] using h2
    rw [process_document, if_neg (by decide), if_neg (by decide), if_pos rfl,
      chunk_by_paragraphs_step c o text (by omega)]
    rw [posRange_single _ _ h1 (by omega)]
    have hsl : pySlice (paragraphUnits text) 0 (((0 : Nat) : Int) + c) =
        paragraphUnits text := by
      rw [show ((0 : Nat) : Int) + c = c by simp]
      exact pySlice_all _ c (by omega) (by omega)
    obtain ⟨w, ws, hw⟩ : ∃ w ws, paragraphUnits text = w :: ws := by
      cases hcase : paragraphUnits text with
      | nil => rw [hcase] at h1; simp at h1
      | cons a b => exact ⟨a, b, rfl⟩
    have hcond : pyStrip (joinSep ('\n' :: ['\n'])
        (pySlice (paragraphUnits text) 0 (((0 : Nat) : Int) + c))) ≠ [] := by
      rw [hsl, hw]
      exact joinSep_strip_ne_nil _ _ _
        (paragraphUnits_has_nonspace text w (hw ▸ List.mem_cons_self w ws))
    simp only [buildParagraphChunks, if_pos hcond]
    rw [hsl]
    simp [mkSingleChunk, unitsOf, joinOf]

/-- Witness for the amended C2: two words, `chunkSize = 3`, `overlap = 0`. -/
theorem claim2_amended_witness :
    ((0 : Int) ≤ 0 ∧ (0 : Int) < 3
      ∧ 1 ≤ (unitsOf "words" "a b".data).length
      ∧ ((unitsOf "words" "a b".data).length : Int) ≤ 3 - 0)
    ∧ process_document "words" 3 0 "a b".data =
        .ok [mkSingleChunk "words" (unitsOf "words" "a b".data)] :=
  ⟨⟨by decide, by decide, by decide, by decide⟩,
    claim2_amended_single_chunk "a b".data 3 0 "words" (Or.inl rfl)
      (by decide) (by decide) (by decide) (by decide)⟩

theorem keywordCandidates_terms_nodup (text : List Char) (mf : Nat) :
    ((keywordCandidates text mf).map Keyword.term).Nodup := by
  simp only [keywordCandidates]
  rw [List.map_map]
  have hcast : ∀ (l : List (List Char × Nat)),
      l.map (Keyword.term ∘ fun p =>
        ({ term := p.1, frequency := p.2, category := categorize_word p.1,
           score := p.2 * (if categorize_word p.1 ≠ "general" then 2 else 1) } :
          Keyword)) = l.map Prod.fst := by
    intro l
    exact List.map_congr_left (fun p _ => rfl)
  rw [hcast]
  exact ((List.filter_sublist _).map Prod.fst).nodup
    (countOrdered_keys_nodup _)

/-- C6: for every text, minimum frequency and result cap, the keyword list
is non-increasing in score, has at most `maxResults` elements with pairwise
distinct terms, and ties are resolved by the encounter order of the
pre-sort candidate list: whatever relation `S` holds pairwise along the
candidates (in particular their encounter order) is preserved between
equal-score keywords in the output. -/
theorem claim6_keyword_sort_properties (text : List Char) (mf mk : Nat)
    (hmf : 1 ≤ mf) (hmk : 0 < mk) :
    List.Pairwise (fun a b => b.score ≤ a.score)
      (extract_statistical_keywords text mf mk)
    ∧ (extract_statistical_keywords text mf mk).length ≤ mk
    ∧ ((extract_statistical_keywords text mf mk).map Keyword.term).Nodup
    ∧ ∀ S : Keyword → Keyword → Prop,
        (keywordCandidates text mf).Pairwise S →
        List.Pairwise
          (fun a b => b.score < a.score ∨ (a.score = b.score ∧ S a b))
          (extract_statistical_keywords text mf mk) := by
  refine ⟨?_, ?_, ?_, ?_⟩
  · refine List.Pairwise.sublist (List.take_sublist _ _) ?_
    refine (sortByKey_sorted (fun k : Keyword => -(k.score : Int)) _).imp ?_
    intro a b h
    simp only at h
    omega
  · exact List.length_take_le _ _
  · rw [extract_statistical_keywords, List.map_take]
    have hperm := (sortByKey_perm (fun k : Keyword => -(k.score : Int))
      (keywordCandidates text mf)).map Keyword.term
    exact List.Nodup.sublist (List.take_sublist _ _)
      (hperm.nodup_iff.mpr (keywordCandidates_terms_nodup text mf))
  · intro S hS
    refine List.Pairwise.sublist (List.take_sublist _ _) ?_
    refine (sortByKey_pairwise (fun k : Keyword => -(k.score : Int)) S _ hS).imp ?_
    intro a b h
    rcases h with h | ⟨heq, hs⟩
    · simp only at h
      exact Or.inl (by omega)
    · simp only at heq
      exact Or.inr ⟨by omega, hs⟩

/-- Witness for C6 on the C5 scenario text with `minFrequency = 1`,
`maxResults = 2`, taking `S` to be the trivial relation. -/
theorem claim6_witness :
    (1 ≤ 1 ∧ 0 < 2)
    ∧ List.Pairwise (fun a b => b.score ≤ a.score)
        (extract_statistical_keywords
          "The party shall pay the party shall pay rent.".data 1 2)
    ∧ (extract_statistical_keywords
        "The party shall pay the party shall pay rent.".data 1 2).length ≤ 2
    ∧ ((extract_statistical_keywords
        "The party shall pay the party shall pay rent.".data 1 2).map
        Keyword.term).Nodup
    ∧ List.Pairwise
        (fun a b => b.score < a.score ∨ (a.score = b.score ∧ True))
        (extract_statistical_keywords
          "The party shall pay the party shall pay rent.".data 1 2) := by
  have h := claim6_keyword_sort_properties
    "The party shall pay the party shall pay rent.".data 1 2
    (by decide) (by decide)
  exact ⟨⟨by decide, by decide⟩, h.1, h.2.1, h.2.2.1,
    h.2.2.2 (fun _ _ => True) (pairwise_true _)⟩

/-!  Decomposition of `extractive_summarization`'s selection pipeline, used
to state C7 (each definition mirrors one internal step of the source). -/

/-- The scored, index-tagged sentence list of `extractive_summarization`. -/
def scoredSentences (text : List Char) : List SentScore :=
  sentence_scores (survivingSentences text)

/-- The score-descending stable sort of the scored sentences. -/
def rankedSentences (text : List Char) : List SentScore :=
  sortByKey (fun x => -(x.score : Int)) (scoredSentences text)

/-- The top `n` sentences re-sorted by original position. -/
def selectedSentences (text : List Char) (n : Nat) : List SentScore :=
  sortByKey (fun x => (x.idx : Int)) ((rankedSentences text).take n)

theorem sentence_scoresAux_mem_idx (ss : List (List Char)) (i : Nat) :
    ∀ x ∈ sentence_scoresAux i ss, i ≤ x.idx := by
  induction ss generalizing i with
  | nil => intro x hx; exact absurd hx (by simp [sentence_scoresAux])
  | cons s rest ih =>
    intro x hx
    rw [sentence_scoresAux] at hx
    rcases List.mem_cons.mp hx with rfl | hx
    · exact Nat.le_refl _
    · exact Nat.le_of_succ_le (ih (i + 1) x hx)

theorem sentence_scoresAux_pairwise (ss : List (List Char)) (i : Nat) :
    (sentence_scoresAux i ss).Pairwise (fun a b => a.idx < b.idx) := by
  induction ss generalizing i with
  | nil => exact List.Pairwise.nil
  | cons s rest ih =>
    rw [sentence_scoresAux]
    refine List.Pairwise.cons ?_ (ih (i + 1))
    intro b hb
    exact Nat.lt_of_lt_of_le (Nat.lt_succ_self i)
      (sentence_scoresAux_mem_idx rest (i + 1) b hb)

theorem sentence_scoresAux_length (ss : List (List Char)) (i : Nat) :
    (sentence_scoresAux i ss).length = ss.length := by
  induction ss generalizing i with
  | nil => rfl
  | cons s rest ih =>
    rw [sentence_scoresAux]
    simp only [List.length_cons]
    rw [ih (i + 1)]

/-- C7: when more sentences survive than the target `n > 0`, the extractive
summary is exactly the join of `selectedSentences`; the selection has `n`
elements, appears in strictly increasing original-position order, and beats
every unselected sentence: any dropped sentence has a strictly lower score,
or an equal score and a strictly later original position. -/
theorem claim7_extractive_selection (text : List Char) (n : Nat) (hn : 0 < n)
    (hlen : n < (survivingSentences text).length) :
    extractive_summarization text n =
      joinSep ('.' :: [' '])
        ((selectedSentences text n).map (fun x => x.sentence)) ++ ['.']
    ∧ (selectedSentences text n).length = n
    ∧ List.Pairwise (fun a b => a.idx < b.idx) (selectedSentences text n)
    ∧ ∀ a ∈ selectedSentences text n, ∀ b ∈ (rankedSentences text).drop n,
        b.score < a.score ∨ (a.score = b.score ∧ a.idx < b.idx) := by
  have hsclen : (scoredSentences text).length = (survivingSentences text).length :=
    sentence_scoresAux_length _ 0
  have hrlen : (rankedSentences text).length = (scoredSentences text).length :=
    (sortByKey_perm _ _).length_eq
  have hscored : (scoredSentences text).Pairwise (fun a b => a.idx < b.idx) :=
    sentence_scoresAux_pairwise _ 0
  have hranked := sortByKey_pairwise (fun x : SentScore => -(x.score : Int))
    (fun a b => a.idx < b.idx) (scoredSentences text) hscored
  refine ⟨?_, ?_, ?_, ?_⟩
  · rw [extractive_summarization]
    rw [if_neg (by omega)]
    rfl
  · have := (sortByKey_perm (fun x : SentScore => (x.idx : Int))
      ((rankedSentences text).take n)).length_eq
    rw [selectedSentences, this, List.length_take]
    omega
  · have h1 : ((scoredSentences text).map
        (fun x : SentScore => x.idx)).Pairwise (· < ·) :=
      List.pairwise_map.mpr hscored
    have h1' : ((scoredSentences text).map
        (fun x : SentScore => x.idx)).Nodup :=
      h1.imp (fun h => Nat.ne_of_lt h)
    have h2 : ((rankedSentences text).map
        (fun x : SentScore => x.idx)).Nodup :=
      (((sortByKey_perm (fun x : SentScore => -(x.score : Int))
        (scoredSentences text)).map _).nodup_iff).mpr h1'
    have h3 : (((rankedSentences text).take n).map
        (fun x : SentScore => x.idx)).Nodup := by
      rw [List.map_take]
      exact List.Nodup.sublist (List.take_sublist _ _) h2
    have h4 : ((rankedSentences text).take n).Pairwise
        (fun a b => a.idx ≠ b.idx) :=
      List.pairwise_map.mp h3
    have h5 := sortByKey_pairwise (fun x : SentScore => (x.idx : Int))
      (fun a b => a.idx ≠ b.idx) _ h4
    refine h5.imp ?_
    intro a b h
    rcases h with h | ⟨heq, hne⟩
    · simp only at h
      omega
    · simp only at heq
      exact absurd (by omega : a.idx = b.idx) hne
  · intro a ha b hb
    have hr2 := hranked
    rw [← List.take_append_drop n
      (sortByKey (fun x : SentScore => -(x.score : Int))
        (scoredSentences text))] at hr2
    have cross := (List.pairwise_append.mp hr2).2.2
    have ha' : a ∈ (rankedSentences text).take n :=
      ((sortByKey_perm (fun x : SentScore => (x.idx : Int))
        ((rankedSentences text).take n)).mem_iff).mp ha
    have hc := cross a ha' b hb
    rcases hc with h | ⟨heq, hlt⟩
    · left
      simp only at h
      omega
    · right
      simp only at heq
      exact ⟨by omega, hlt⟩

/-- Witness for C7 on a two-sentence text with target 1. -/
theorem claim7_witness :
    (0 < 1
      ∧ 1 < (survivingSentences
          "The tenant shall pay the rent monthly. The weather is nice and calm today.".data).length)
    ∧ extractive_summarization
        "The tenant shall pay the rent monthly. The weather is nice and calm today.".data 1 =
      joinSep ('.' :: [' '])
        ((selectedSentences
          "The tenant shall pay the rent monthly. The weather is nice and calm today.".data 1).map
          (fun x => x.sentence)) ++ ['.']
    ∧ (selectedSentences
        "The tenant shall pay the rent monthly. The weather is nice and calm today.".data 1).length = 1
    ∧ List.Pairwise (fun a b => a.idx < b.idx)
        (selectedSentences
          "The tenant shall pay the rent monthly. The weather is nice and calm today.".data 1) := by
  have h := claim7_extractive_selection
    "The tenant shall pay the rent monthly. The weather is nice and calm today.".data
    1 (by decide) (by decide)
  exact ⟨⟨by decide, by decide⟩, h.1, h.2.1, h.2.2.1⟩

/-- C8: for word chunking on a fixed text, a smaller overlap never produces
more chunks, and for a fixed overlap, a larger chunk size never produces
more chunks. -/
theorem claim8_chunk_count_monotone (text : List Char)
    (c c₁ c₂ o o₁ o₂ : Int) (l₁ l₂ l₃ l₄ : List Chunk)
    (h0 : 0 ≤ o₁) (h12 : o₁ < o₂) (h2c : o₂ < c)
    (ho : 0 ≤ o) (hc1 : o < c₁) (hcc : c₁ < c₂)
    (e₁ : chunk_by_words c o₁ text = .ok l₁)
    (e₂ : chunk_by_words c o₂ text = .ok l₂)
    (e₃ : chunk_by_words c₁ o text = .ok l₃)
    (e₄ : chunk_by_words c₂ o text = .ok l₄) :
    l₁.length ≤ l₂.length ∧ l₄.length ≤ l₃.length := by
  obtain ⟨m₁, hm₁, hn₁⟩ := chunk_by_words_count c o₁ text h0 (by omega)
  obtain ⟨m₂, hm₂, hn₂⟩ := chunk_by_words_count c o₂ text (by omega) (by omega)
  obtain ⟨m₃, hm₃, hn₃⟩ := chunk_by_words_count c₁ o text ho hc1
  obtain ⟨m₄, hm₄, hn₄⟩ := chunk_by_words_count c₂ o text ho (by omega)
  rw [e₁] at hm₁
  rw [e₂] at hm₂
  rw [e₃] at hm₃
  rw [e₄] at hm₄
  obtain rfl := (Except.ok.injEq _ _ ▸ hm₁ : l₁ = m₁)
  obtain rfl := (Except.ok.injEq _ _ ▸ hm₂ : l₂ = m₂)
  obtain rfl := (Except.ok.injEq _ _ ▸ hm₃ : l₃ = m₃)
  obtain rfl := (Except.ok.injEq _ _ ▸ hm₄ : l₄ = m₄)
  rw [hn₁, hn₂, hn₃, hn₄]
  constructor
  · exact ceilDiv_antitone _ _ _ (by omega) (by omega)
  · exact ceilDiv_antitone _ _ _ (by omega) (by omega)

/-- Witness for C8 on ten words: overlaps 1 < 2 with chunk size 4, and
chunk sizes 3 < 4 with overlap 1. -/
theorem claim8_witness :
    ((0 : Int) ≤ 1 ∧ (1 : Int) < 2 ∧ (2 : Int) < 4
      ∧ (0 : Int) ≤ 1 ∧ (1 : Int) < 3 ∧ (3 : Int) < 4)
    ∧ chunk_by_words 4 1 "w1 w2 w3 w4 w5 w6 w7 w8 w9 w10".data =
        .ok ((chunk_by_words 4 1 "w1 w2 w3 w4 w5 w6 w7 w8 w9 w10".data).toOption.getD [])
    ∧ chunk_by_words 4 2 "w1 w2 w3 w4 w5 w6 w7 w8 w9 w10".data =
        .ok ((chunk_by_words 4 2 "w1 w2 w3 w4 w5 w6 w7 w8 w9 w10".data).toOption.getD [])
    ∧ chunk_by_words 3 1 "w1 w2 w3 w4 w5 w6 w7 w8 w9 w10".data =
        .ok ((chunk_by_words 3 1 "w1 w2 w3 w4 w5 w6 w7 w8 w9 w10".data).toOption.getD [])
    ∧ ((chunk_by_words 4 1 "w1 w2 w3 w4 w5 w6 w7 w8 w9 w10".data).toOption.getD []).length ≤
        ((chunk_by_words 4 2 "w1 w2 w3 w4 w5 w6 w7 w8 w9 w10".data).toOption.getD []).length
    ∧ ((chunk_by_words 4 1 "w1 w2 w3 w4 w5 w6 w7 w8 w9 w10".data).toOption.getD []).length ≤
        ((chunk_by_words 3 1 "w1 w2 w3 w4 w5 w6 w7 w8 w9 w10".data).toOption.getD []).length := by
  have h := claim8_chunk_count_monotone "w1 w2 w3 w4 w5 w6 w7 w8 w9 w10".data
    4 3 4 1 1 2
    ((chunk_by_words 4 1 "w1 w2 w3 w4 w5 w6 w7 w8 w9 w10".data).toOption.getD [])
    ((chunk_by_words 4 2 "w1 w2 w3 w4 w5 w6 w7 w8 w9 w10".data).toOption.getD [])
    ((chunk_by_words 3 1 "w1 w2 w3 w4 w5 w6 w7 w8 w9 w10".data).toOption.getD [])
    ((chunk_by_words 4 1 "w1 w2 w3 w4 w5 w6 w7 w8 w9 w10".data).toOption.getD [])
    (by decide) (by decide) (by decide) (by decide) (by decide) (by decide)
    (by decide) (by decide) (by decide) (by decide)
  exact ⟨⟨by decide, by decide, by decide, by decide, by decide, by decide⟩,
    by decide, by decide, by decide, h.1, h.2⟩

end LegalDoc
